import Mathlib

/-
  Verification of the Serial Download Queue, preference store, whitelist,
  callback handling and download error paths of the Telegram audio
  downloader bot (src/bot.py), as a shallow embedding in Lean 4.

  Conventions:
  * Python dicts are modelled as association lists with first-match lookup
    and in-place update (`dictGet` / `dictSet`).
  * Python strings are modelled as `String` or, where character-level
    splitting matters, as `List Char`.
  * The asyncio cooperative scheduler is modelled as a small-step transition
    system whose atomic steps are the code regions between await points;
    any real interleaving of the event loop is one of the modelled traces.
-/

set_option maxHeartbeats 1000000

namespace YTBot

/-! ## Serial Download Queue (src/bot.py lines 479-508)

The class keeps `self.queue` (a Python list of zero-argument async
executors), `self.running` (a plain boolean), and `self.lock`
(an `asyncio.Lock`).  `add` appends an executor and spawns a `bump` task;
`bump` runs the re-entrancy guard under the lock and, if it claimed the
`running` flag, drains the queue head-first, awaiting `self.run(next_up)`
for each popped executor, finally clearing the flag under the lock.

Executors are tracked by a numeric id; the body of executor `j` is
described by a behaviour function `beh : Nat -> ExecResult` saying whether
it returns normally or raises. -/

/-- Result of awaiting one executor: either it returns normally, or it
raises an exception carrying a message. -/
inductive ExecResult where
  | ok
  | raised (msg : String)
deriving DecidableEq

/-- Shallow embedding of `Queue.run` (src/bot.py lines 485-489): the
executor is awaited inside `try`, and any exception is logged and swallowed
by `except Exception as e: logger.error(...)`, so `run` always returns
normally, whatever the executor did. -/
def Queue.run : ExecResult → Unit
  | ExecResult.ok => ()
  | ExecResult.raised _ => ()

/-- Program points of one `bump` task (src/bot.py lines 491-504), i.e. the
code regions between the await points at which the asyncio event loop can
switch to another task.  The lock-guarded sections contain no await between
acquiring and releasing the lock, so each runs atomically. -/
inductive TaskPC where
  | gate           -- about to run the guarded re-entrancy check (lines 492-495)
  | drain          -- inside the drain loop, about to test `while self.queue` (line 498)
  | exec (j : Nat) -- awaiting `self.run(next_up)` for executor j (line 501)
deriving DecidableEq

/-- The shared state of one `Queue` object together with the `bump` tasks
spawned by `add` that have not yet returned. -/
structure QState where
  queue : List Nat
  running : Bool
  tasks : List TaskPC
deriving DecidableEq

/-- `Queue.__init__` (src/bot.py lines 480-483): empty list, flag down,
no tasks in flight. -/
def Queue.init : QState := { queue := [], running := false, tasks := [] }

/-- Observable events of a queue execution. -/
inductive QEvent where
  | add (j : Nat)                      -- `add` called with executor j
  | start (j : Nat)                    -- the drain loop begins awaiting executor j
  | fin (j : Nat) (res : ExecResult)   -- executor j finished, with its outcome
deriving DecidableEq

/-- The continuation of the drain loop after `await self.run(next_up)`:
`run` returns `()` in all cases, and the task goes back to the `while`
test. -/
def afterRun : Unit → TaskPC := fun _ => TaskPC.drain

/-- One atomic step of the queue system.  `QStep.add` models a call of
`Queue.add` (append the executor, spawn a `bump` task, src/bot.py lines
506-508) and may happen at any time, from any chat handler.  The remaining
constructors advance one existing `bump` task. -/
inductive QStep (beh : Nat → ExecResult) : QState → List QEvent → QState → Prop where
  | add (s : QState) (j : Nat) :
      QStep beh s [QEvent.add j]
        { queue := s.queue ++ [j], running := s.running, tasks := s.tasks ++ [TaskPC.gate] }
  | gateBusy (q : List Nat) (l r : List TaskPC) :
      QStep beh { queue := q, running := true, tasks := l ++ TaskPC.gate :: r } []
        { queue := q, running := true, tasks := l ++ r }
  | gateClaim (q : List Nat) (l r : List TaskPC) :
      QStep beh { queue := q, running := false, tasks := l ++ TaskPC.gate :: r } []
        { queue := q, running := true, tasks := l ++ TaskPC.drain :: r }
  | pop (j : Nat) (q : List Nat) (b : Bool) (l r : List TaskPC) :
      QStep beh { queue := j :: q, running := b, tasks := l ++ TaskPC.drain :: r }
        [QEvent.start j]
        { queue := q, running := b, tasks := l ++ TaskPC.exec j :: r }
  | fin (j : Nat) (q : List Nat) (b : Bool) (l r : List TaskPC) :
      QStep beh { queue := q, running := b, tasks := l ++ TaskPC.exec j :: r }
        [QEvent.fin j (beh j)]
        { queue := q, running := b, tasks := l ++ afterRun (Queue.run (beh j)) :: r }
  | exitLoop (b : Bool) (l r : List TaskPC) :
      QStep beh { queue := [], running := b, tasks := l ++ TaskPC.drain :: r } []
        { queue := [], running := false, tasks := l ++ r }

/-- Finitely many steps, accumulating the emitted events. -/
inductive QSteps (beh : Nat → ExecResult) : QState → List QEvent → QState → Prop where
  | refl (s : QState) : QSteps beh s [] s
  | head {s t u : QState} {es tr : List QEvent} :
      QStep beh s es t → QSteps beh t tr u → QSteps beh s (es ++ tr) u

/-- Ids of the executors added, in order. -/
def addsOf (tr : List QEvent) : List Nat :=
  tr.filterMap fun e => match e with | QEvent.add j => some j | _ => none

/-- Ids of the executors started, in order. -/
def startsOf (tr : List QEvent) : List Nat :=
  tr.filterMap fun e => match e with | QEvent.start j => some j | _ => none

/-- Ids of the executors that ran to completion (normally or raising), in order. -/
def finsOf (tr : List QEvent) : List Nat :=
  tr.filterMap fun e => match e with | QEvent.fin j _ => some j | _ => none

/-- A task is active once it has passed the re-entrancy gate. -/
def isActive : TaskPC → Bool
  | TaskPC.gate => false
  | TaskPC.drain => true
  | TaskPC.exec _ => true

/-- Number of tasks past the re-entrancy gate. -/
def activeCount (s : QState) : Nat := s.tasks.countP isActive

/-- Ids of the executors currently being awaited. -/
def execsOf (ts : List TaskPC) : List Nat :=
  ts.filterMap fun pc => match pc with | TaskPC.exec j => some j | _ => none

/-- The inductive invariant of the queue system, relative to the event
trace accumulated so far: at most one task is past the re-entrancy gate,
the `running` flag is up exactly while one is, starts consume the add list
head-first, and finishes consume the start list head-first. -/
structure QInv (tr : List QEvent) (s : QState) : Prop where
  act_le : activeCount s ≤ 1
  run_iff : s.running = true ↔ activeCount s = 1
  fifo : addsOf tr = startsOf tr ++ s.queue
  seq : startsOf tr = finsOf tr ++ execsOf s.tasks
  tasks_ne : s.queue ≠ [] → s.tasks ≠ []

theorem execsOf_append (l r : List TaskPC) :
    execsOf (l ++ r) = execsOf l ++ execsOf r := by
  simp [execsOf]

theorem execsOf_middle (l r : List TaskPC) (pc : TaskPC) :
    execsOf (l ++ pc :: r) = execsOf l ++ execsOf [pc] ++ execsOf r := by
  cases pc <;> simp [execsOf]

theorem execsOf_length_le (ts : List TaskPC) :
    (execsOf ts).length ≤ ts.countP isActive := by
  induction ts with
  | nil => simp [execsOf]
  | cons pc ts ih =>
    cases pc <;> simp [execsOf, List.countP_cons, isActive] at * <;> omega

theorem execsOf_nil_of_inactive {ts : List TaskPC} (h : ts.countP isActive = 0) :
    execsOf ts = [] := by
  have := execsOf_length_le ts
  rw [h] at this
  exact List.eq_nil_of_length_eq_zero (Nat.le_zero.mp this)

theorem countP_middle (l r : List TaskPC) (pc : TaskPC) :
    (l ++ pc :: r).countP isActive =
      l.countP isActive + (if isActive pc then 1 else 0) + r.countP isActive := by
  rw [List.countP_append, List.countP_cons]
  omega

/-- If an active task sits in the middle and the total active count is at
most one, then no other task is active. -/
theorem sides_inactive {l r : List TaskPC} {pc : TaskPC}
    (hpc : isActive pc = true)
    (h : (l ++ pc :: r).countP isActive ≤ 1) :
    l.countP isActive = 0 ∧ r.countP isActive = 0 := by
  rw [countP_middle, hpc] at h
  simp only [if_true] at h
  omega

theorem addsOf_append (p q : List QEvent) : addsOf (p ++ q) = addsOf p ++ addsOf q := by
  simp [addsOf]

theorem startsOf_append (p q : List QEvent) : startsOf (p ++ q) = startsOf p ++ startsOf q := by
  simp [startsOf]

theorem finsOf_append (p q : List QEvent) : finsOf (p ++ q) = finsOf p ++ finsOf q := by
  simp [finsOf]

theorem addsOf_one_add (j : Nat) : addsOf [QEvent.add j] = [j] := rfl

theorem startsOf_one_add (j : Nat) : startsOf [QEvent.add j] = [] := rfl

theorem finsOf_one_add (j : Nat) : finsOf [QEvent.add j] = [] := rfl

theorem addsOf_one_start (j : Nat) : addsOf [QEvent.start j] = [] := rfl

theorem startsOf_one_start (j : Nat) : startsOf [QEvent.start j] = [j] := rfl

theorem finsOf_one_start (j : Nat) : finsOf [QEvent.start j] = [] := rfl

theorem addsOf_one_fin (j : Nat) (res : ExecResult) : addsOf [QEvent.fin j res] = [] := rfl

theorem startsOf_one_fin (j : Nat) (res : ExecResult) : startsOf [QEvent.fin j res] = [] := rfl

theorem finsOf_one_fin (j : Nat) (res : ExecResult) : finsOf [QEvent.fin j res] = [j] := rfl

/-- Single-step preservation of the invariant. -/
theorem qinv_step {beh : Nat → ExecResult} {s t : QState} {es : List QEvent}
    (h : QStep beh s es t) {tr : List QEvent} (inv : QInv tr s) :
    QInv (tr ++ es) t := by
  obtain ⟨act_le, run_iff, fifo, seq, tasks_ne⟩ := inv
  cases h with
  | add s j =>
      refine ⟨?_, ?_, ?_, ?_, ?_⟩
      · simpa [activeCount, List.countP_append, isActive] using act_le
      · simpa [activeCount, List.countP_append, isActive] using run_iff
      · rw [addsOf_append, startsOf_append, fifo, addsOf_one_add, startsOf_one_add]
        simp
      · rw [startsOf_append, finsOf_append, seq, startsOf_one_add, finsOf_one_add]
        simp [execsOf_append, execsOf]
      · intro _
        simp
  | gateBusy q l r =>
      have hact : (l ++ TaskPC.gate :: r).countP isActive = (l ++ r).countP isActive := by
        simp [List.countP_append, List.countP_cons, isActive]
      refine ⟨?_, ?_, ?_, ?_, ?_⟩
      · simpa [activeCount, ← hact] using act_le
      · simpa [activeCount, ← hact] using run_iff
      · simpa using fifo
      · have hsame : execsOf (l ++ TaskPC.gate :: r) = execsOf (l ++ r) := by
          simp [execsOf_append, execsOf]
        rw [← hsame]
        simpa using seq
      · intro _ hnil
        obtain ⟨hl, hr⟩ := List.append_eq_nil.mp (by simpa using hnil)
        subst hl
        subst hr
        have h0 := run_iff.mp rfl
        simp [activeCount, isActive] at h0
  | gateClaim q l r =>
      have hz : (l ++ TaskPC.gate :: r).countP isActive = 0 := by
        by_contra hne
        have hle : activeCount { queue := q, running := false, tasks := l ++ TaskPC.gate :: r } ≤ 1 :=
          act_le
        have h1 : activeCount { queue := q, running := false, tasks := l ++ TaskPC.gate :: r } = 1 := by
          simp only [activeCount] at hle ⊢
          omega
        have h2 := run_iff.mpr h1
        simp at h2
      have hlr : l.countP isActive = 0 ∧ r.countP isActive = 0 := by
        rw [countP_middle] at hz
        constructor <;> omega
      refine ⟨?_, ?_, ?_, ?_, ?_⟩
      · simp [activeCount, countP_middle, isActive, hlr.1, hlr.2]
      · simp [activeCount, countP_middle, isActive, hlr.1, hlr.2]
      · simpa using fifo
      · have hsame : execsOf (l ++ TaskPC.gate :: r) = execsOf (l ++ TaskPC.drain :: r) := by
          simp [execsOf_append, execsOf]
        rw [← hsame]
        simpa using seq
      · intro _
        simp
  | pop j q b l r =>
      have hdr : isActive TaskPC.drain = true := rfl
      have hlr := sides_inactive hdr (by simpa [activeCount] using act_le)
      have hex : execsOf (l ++ TaskPC.drain :: r) = [] := by
        rw [execsOf_middle, execsOf_nil_of_inactive hlr.1, execsOf_nil_of_inactive hlr.2]
        rfl
      have hact : (l ++ TaskPC.exec j :: r).countP isActive =
          (l ++ TaskPC.drain :: r).countP isActive := by
        simp [countP_middle, isActive]
      refine ⟨?_, ?_, ?_, ?_, ?_⟩
      · simpa [activeCount, hact] using act_le
      · simpa [activeCount, hact] using run_iff
      · rw [addsOf_append, startsOf_append, fifo, addsOf_one_start, startsOf_one_start]
        simp
      · have hex2 : execsOf (l ++ TaskPC.exec j :: r) = [j] := by
          rw [execsOf_middle, execsOf_nil_of_inactive hlr.1, execsOf_nil_of_inactive hlr.2]
          rfl
        rw [startsOf_append, finsOf_append, seq, hex, startsOf_one_start, finsOf_one_start]
        simp [hex2]
      · intro _
        simp
  | fin j q b l r =>
      have hexj : isActive (TaskPC.exec j) = true := rfl
      have hlr := sides_inactive hexj (by simpa [activeCount] using act_le)
      have hex : execsOf (l ++ TaskPC.exec j :: r) = [j] := by
        rw [execsOf_middle, execsOf_nil_of_inactive hlr.1, execsOf_nil_of_inactive hlr.2]
        rfl
      have hact : (l ++ afterRun (Queue.run (beh j)) :: r).countP isActive =
          (l ++ TaskPC.exec j :: r).countP isActive := by
        simp [countP_middle, isActive, afterRun]
      refine ⟨?_, ?_, ?_, ?_, ?_⟩
      · simpa [activeCount, hact] using act_le
      · simpa [activeCount, hact] using run_iff
      · rw [addsOf_append, startsOf_append, fifo, addsOf_one_fin, startsOf_one_fin]
        simp
      · have hex2 : execsOf (l ++ afterRun (Queue.run (beh j)) :: r) = [] := by
          rw [execsOf_middle, execsOf_nil_of_inactive hlr.1, execsOf_nil_of_inactive hlr.2]
          rfl
        rw [startsOf_append, finsOf_append, seq, hex, startsOf_one_fin, finsOf_one_fin]
        simp [hex2]
      · intro _
        simp
  | exitLoop b l r =>
      have hdr : isActive TaskPC.drain = true := rfl
      have hlr := sides_inactive hdr (by simpa [activeCount] using act_le)
      have hex : execsOf (l ++ TaskPC.drain :: r) = [] := by
        rw [execsOf_middle, execsOf_nil_of_inactive hlr.1, execsOf_nil_of_inactive hlr.2]
        rfl
      refine ⟨?_, ?_, ?_, ?_, ?_⟩
      · simp [activeCount, List.countP_append, hlr.1, hlr.2]
      · simp [activeCount, List.countP_append, hlr.1, hlr.2]
      · simpa using fifo
      · have hex2 : execsOf (l ++ r) = [] := by
          rw [execsOf_append, execsOf_nil_of_inactive hlr.1, execsOf_nil_of_inactive hlr.2]
          rfl
        rw [hex2, ← hex]
        simpa using seq
      · intro hq
        exact absurd rfl hq

/-- Invariant preservation along a whole execution. -/
theorem qinv_steps {beh : Nat → ExecResult} {t u : QState} {tr : List QEvent}
    (h : QSteps beh t tr u) :
    ∀ p : List QEvent, QInv p t → QInv (p ++ tr) u := by
  induction h with
  | refl s =>
      intro p hp
      simpa using hp
  | head hstep _ ih =>
      intro p hp
      have h1 := qinv_step hstep hp
      have h2 := ih _ h1
      simpa [List.append_assoc] using h2

theorem qinv_init : QInv [] Queue.init := by
  refine ⟨?_, ?_, ?_, ?_, ?_⟩ <;>
    simp [Queue.init, activeCount, addsOf, startsOf, finsOf, execsOf]

/-- Every reachable state satisfies the invariant relative to its trace. -/
theorem qinv {beh : Nat → ExecResult} {tr : List QEvent} {s : QState}
    (h : QSteps beh Queue.init tr s) : QInv tr s := by
  have := qinv_steps h [] qinv_init
  simpa using this

/-- Each step emits at most one event. -/
theorem qstep_events {beh : Nat → ExecResult} {s t : QState} {es : List QEvent}
    (h : QStep beh s es t) : es = [] ∨ ∃ e : QEvent, es = [e] := by
  cases h with
  | add s j => exact Or.inr ⟨QEvent.add j, rfl⟩
  | gateBusy q l r => exact Or.inl rfl
  | gateClaim q l r => exact Or.inl rfl
  | pop j q b l r => exact Or.inr ⟨QEvent.start j, rfl⟩
  | fin j q b l r => exact Or.inr ⟨QEvent.fin j (beh j), rfl⟩
  | exitLoop b l r => exact Or.inl rfl

/-- Because every step emits at most one event, any split of the event list
of an execution is realised at some intermediate state. -/
theorem qsteps_split {beh : Nat → ExecResult} {s u : QState} {tr : List QEvent}
    (h : QSteps beh s tr u) :
    ∀ p q : List QEvent, tr = p ++ q →
      ∃ t : QState, QSteps beh s p t ∧ QSteps beh t q u := by
  induction h with
  | refl s =>
      intro p q hpq
      obtain ⟨hp, hq⟩ := List.append_eq_nil.mp hpq.symm
      subst hp
      subst hq
      exact ⟨s, QSteps.refl s, QSteps.refl s⟩
  | head hstep hrest ih =>
      intro p q hpq
      rcases qstep_events hstep with hnil | ⟨e, he⟩
      · subst hnil
        simp only [List.nil_append] at hpq
        obtain ⟨m, hm1, hm2⟩ := ih p q hpq
        refine ⟨m, ?_, hm2⟩
        have := QSteps.head hstep hm1
        simpa using this
      · subst he
        cases p with
        | nil =>
            refine ⟨_, QSteps.refl _, ?_⟩
            simp only [List.nil_append] at hpq
            rw [← hpq]
            exact QSteps.head hstep hrest
        | cons e0 p0 =>
            simp only [List.singleton_append, List.cons_append] at hpq
            obtain ⟨he0, hrest0⟩ : e = e0 ∧ _ = p0 ++ q := by
              constructor
              · exact (List.cons_eq_cons.mp hpq).1
              · exact (List.cons_eq_cons.mp hpq).2
            obtain ⟨m, hm1, hm2⟩ := ih p0 q hrest0
            refine ⟨m, ?_, hm2⟩
            have := QSteps.head hstep hm1
            rw [he0] at this
            simpa using this

/-- If a `start` event is the next event to be emitted, then at that moment
all previously started executors have already finished: the `pop` step can
only fire from a `drain` task, and the single-flight invariant forbids any
concurrently awaited executor. -/
theorem start_balanced {beh : Nat → ExecResult} {t s : QState} {tr : List QEvent}
    (h : QSteps beh t tr s) :
    ∀ (j : Nat) (q p : List QEvent), tr = QEvent.start j :: q → QInv p t →
      startsOf p = finsOf p := by
  induction h with
  | refl s =>
      intro j q p htr
      exact absurd htr (by simp)
  | head hstep hrest ih =>
      intro j q p htr hinv
      rcases qstep_events hstep with hnil | ⟨e, he⟩
      · subst hnil
        simp only [List.nil_append] at htr
        have hinv2 := qinv_step hstep hinv
        rw [List.append_nil] at hinv2
        exact ih j q p htr hinv2
      · subst he
        simp only [List.singleton_append] at htr
        have he0 : e = QEvent.start j := (List.cons_eq_cons.mp htr).1
        subst he0
        cases hstep with
        | pop j q0 b l r =>
            have hdr : isActive TaskPC.drain = true := rfl
            have hlr := sides_inactive hdr (by simpa [activeCount] using hinv.act_le)
            have hex : execsOf (l ++ TaskPC.drain :: r) = [] := by
              rw [execsOf_middle, execsOf_nil_of_inactive hlr.1,
                execsOf_nil_of_inactive hlr.2]
              rfl
            have hseq : startsOf p = finsOf p ++ execsOf (l ++ TaskPC.drain :: r) :=
              hinv.seq
            rw [hex] at hseq
            simpa using hseq

/-!  Claims C1, C2, C3 about the Serial Download Queue. -/

/-- Claim C1: at most one executor job runs at any instant, system-wide.
For every execution of the queue from its initial state — including
executions in which `add` steps are interleaved arbitrarily, modelling
concurrent calls from different chat sessions — and every prefix of its
event trace, the number of jobs started exceeds the number of jobs finished
by at most one; hence the execution intervals of two jobs never overlap. -/
theorem C1_single_flight {beh : Nat → ExecResult} {tr : List QEvent} {s : QState}
    (h : QSteps beh Queue.init tr s) {p : List QEvent} (hp : p <+: tr) :
    (startsOf p).length ≤ (finsOf p).length + 1 := by
  obtain ⟨q, hq⟩ := hp
  obtain ⟨t, hpt, -⟩ := qsteps_split h p q hq.symm
  have inv := qinv hpt
  have hlen : (execsOf t.tasks).length ≤ 1 := by
    have h1 := execsOf_length_le t.tasks
    have h2 := inv.act_le
    simp only [activeCount] at h2
    omega
  rw [inv.seq, List.length_append]
  omega

/-- Claim C1 witness: a concrete six-event execution with two jobs. -/
def exBeh : Nat → ExecResult :=
  fun j => if j = 0 then ExecResult.raised "boom" else ExecResult.ok

def exTrace : List QEvent :=
  [QEvent.add 0, QEvent.add 1, QEvent.start 0, QEvent.fin 0 (ExecResult.raised "boom"),
   QEvent.start 1, QEvent.fin 1 ExecResult.ok]

/-- The concrete schedule: two adds, the first bump task claims the flag,
the second returns at the gate, then the first drains both jobs (job 0
raising) and clears the flag. -/
theorem exSteps : QSteps exBeh Queue.init exTrace
    { queue := [], running := false, tasks := [] } := by
  refine QSteps.head (QStep.add Queue.init 0) ?_
  refine QSteps.head (QStep.add { queue := [0], running := false, tasks := [TaskPC.gate] } 1) ?_
  refine QSteps.head (QStep.gateClaim [0, 1] [] [TaskPC.gate]) ?_
  refine QSteps.head (QStep.gateBusy [0, 1] [TaskPC.drain] []) ?_
  refine QSteps.head (QStep.pop 0 [1] true [] []) ?_
  refine QSteps.head (QStep.fin 0 [1] true [] []) ?_
  refine QSteps.head (QStep.pop 1 [] true [] []) ?_
  refine QSteps.head (QStep.fin 1 [] true [] []) ?_
  refine QSteps.head (QStep.exitLoop true [] []) ?_
  exact QSteps.refl _

theorem C1_single_flight_witness :
    (startsOf [QEvent.add 0, QEvent.add 1, QEvent.start 0]).length ≤
      (finsOf [QEvent.add 0, QEvent.add 1, QEvent.start 0]).length + 1 :=
  C1_single_flight exSteps
    ⟨[QEvent.fin 0 (ExecResult.raised "boom"), QEvent.start 1, QEvent.fin 1 ExecResult.ok],
     rfl⟩

/-- Claim C2: jobs start in exactly the order they were enqueued — strict
FIFO — and each job finishes before the next one starts.  For every
execution from the initial state, the sequence of started job ids is a
prefix of the sequence of enqueued job ids, and at every point where a
`start` event fires, every previously started job has already finished. -/
theorem C2_fifo {beh : Nat → ExecResult} {tr : List QEvent} {s : QState}
    (h : QSteps beh Queue.init tr s) {p : List QEvent} {j : Nat}
    (hp : p ++ [QEvent.start j] <+: tr) :
    startsOf tr <+: addsOf tr ∧ startsOf p = finsOf p := by
  constructor
  · exact ⟨s.queue, ((qinv h).fifo).symm⟩
  · obtain ⟨q, hq⟩ := hp
    have hsplit : tr = p ++ (QEvent.start j :: q) := by
      rw [← hq]
      simp
    obtain ⟨t, hpt, hts⟩ := qsteps_split h p (QEvent.start j :: q) hsplit
    exact start_balanced hts j q p rfl (qinv hpt)

theorem C2_fifo_witness :
    startsOf exTrace <+: addsOf exTrace ∧
    startsOf [QEvent.add 0, QEvent.add 1, QEvent.start 0,
        QEvent.fin 0 (ExecResult.raised "boom")] =
      finsOf [QEvent.add 0, QEvent.add 1, QEvent.start 0,
        QEvent.fin 0 (ExecResult.raised "boom")] :=
  C2_fifo exSteps ⟨[QEvent.fin 1 ExecResult.ok], rfl⟩

/-- Claim C3: a raising job is logged and swallowed by `Queue.run` and does
not stop the drain loop.  The step relation sends a finished executor back
to the drain loop via `afterRun (Queue.run (beh j))` whatever its outcome,
so for every behaviour `beh` — including behaviours where any number of
jobs raise — once all bump tasks have returned, every job that was ever
enqueued has been run to completion, in order. -/
theorem C3_failures_swallowed {beh : Nat → ExecResult} {tr : List QEvent} {s : QState}
    (h : QSteps beh Queue.init tr s) (hdone : s.tasks = []) :
    finsOf tr = addsOf tr := by
  have inv := qinv h
  have hq : s.queue = [] := by
    by_contra hne
    exact inv.tasks_ne hne hdone
  have hex : execsOf s.tasks = [] := by
    rw [hdone]
    rfl
  have h1 := inv.fifo
  have h2 := inv.seq
  rw [hq, List.append_nil] at h1
  rw [hex, List.append_nil] at h2
  rw [← h2, ← h1]

/-- Claim C3 witness: in the concrete execution job 0 raises, yet both jobs
0 and 1 are run to completion. -/
theorem C3_failures_swallowed_witness : finsOf exTrace = addsOf exTrace :=
  C3_failures_swallowed exSteps rfl

/-! ## Python dicts as association lists

`dictGet` and `dictSet` model Python dict read and in-place assignment:
lookup returns the value stored at the key, assignment replaces the value
at an existing key or appends a fresh binding. -/

def dictGet {β : Type} : List (String × β) → String → Option β
  | [], _ => none
  | (k, v) :: m, key => if k = key then some v else dictGet m key

def dictSet {β : Type} : List (String × β) → String → β → List (String × β)
  | [], key, val => [(key, val)]
  | (k, v) :: m, key, val =>
      if k = key then (key, val) :: m else (k, v) :: dictSet m key val

theorem dictGet_dictSet_same {β : Type} (m : List (String × β)) (key : String) (val : β) :
    dictGet (dictSet m key val) key = some val := by
  induction m with
  | nil => simp [dictGet, dictSet]
  | cons kv m ih =>
      obtain ⟨k, v⟩ := kv
      by_cases hk : k = key
      · simp [dictGet, dictSet, hk]
      · simp [dictGet, dictSet, hk, ih]

theorem dictGet_dictSet_other {β : Type} (m : List (String × β)) (key other : String)
    (val : β) (hne : other ≠ key) :
    dictGet (dictSet m key val) other = dictGet m other := by
  have hne2 : key ≠ other := Ne.symm hne
  induction m with
  | nil => simp [dictGet, dictSet, hne2]
  | cons kv m ih =>
      obtain ⟨k, v⟩ := kv
      by_cases hk : k = key
      · subst hk
        simp [dictGet, dictSet, hne2]
      · by_cases ho : k = other
        · subst ho
          simp [dictGet, dictSet, hne, ih]
        · simp [dictGet, dictSet, hk, ho, ih]

/-! ## UserPreferences (src/bot.py lines 306-336)

The persisted JSON document maps `str(user_id)` to a per-user dict of
preference keys; `save_preferences` serialises the whole in-memory dict to
the preferences file, `load_preferences` deserialises it back.  The JSON
round trip of this nested string-keyed document is the identity, so the
file is modelled as holding the document itself.  The value type is an
arbitrary `α` (the bot stores strings such as "high"). -/

/-- The nested preferences document: str(user_id) -> key -> value. -/
def PrefDoc (α : Type) : Type := List (String × List (String × α))

/-- In-memory state of a `UserPreferences` object together with the current
contents of its preferences file. -/
structure UserPreferences (α : Type) where
  prefs_file : PrefDoc α
  preferences : PrefDoc α

/-- `load_preferences` (lines 311-316): read the persisted document back. -/
def load_preferences {α : Type} (file : PrefDoc α) : PrefDoc α := file

/-- `UserPreferences.__init__` (lines 307-309): remember the file and load
the stored document into memory — this is the simulated process restart. -/
def UserPreferences.ofFile {α : Type} (file : PrefDoc α) : UserPreferences α :=
  { prefs_file := file, preferences := load_preferences file }

/-- `save_preferences` (lines 318-321): `json.dump(self.preferences, f)` —
the whole in-memory document is serialised to the file, unconditionally. -/
def UserPreferences.save_preferences {α : Type} (p : UserPreferences α) :
    UserPreferences α :=
  { p with prefs_file := p.preferences }

/-- `get_user_preference` (lines 323-328), with the default argument left
at its source default `None`. -/
def UserPreferences.get_user_preference {α : Type} (p : UserPreferences α)
    (user_id : Int) (key : String) : Option α :=
  match dictGet p.preferences (toString user_id) with
  | some userMap => dictGet userMap key
  | none => none

/-- `set_user_preference` (lines 330-336): create the per-user dict if
missing, assign the key, then `await self.save_preferences()`. -/
def UserPreferences.set_user_preference {α : Type} (p : UserPreferences α)
    (user_id : Int) (key : String) (value : α) : UserPreferences α :=
  let uid := toString user_id
  let userMap := match dictGet p.preferences uid with
                 | some m => m
                 | none => []
  UserPreferences.save_preferences
    { p with preferences := dictSet p.preferences uid (dictSet userMap key value) }

/-- Claim C5: for every user id, preference key and value, a
`set_user_preference` followed by `get_user_preference` on the same user
and key returns exactly the value set, both directly and after the
`UserPreferences` store is reconstructed from the persisted document
(simulated process restart). -/
theorem C5_pref_roundtrip {α : Type} (p : UserPreferences α) (user_id : Int)
    (key : String) (value : α) :
    (p.set_user_preference user_id key value).get_user_preference user_id key =
      some value ∧
    (UserPreferences.ofFile
        (p.set_user_preference user_id key value).prefs_file).get_user_preference
        user_id key = some value := by
  constructor
  · simp [UserPreferences.set_user_preference, UserPreferences.get_user_preference,
      UserPreferences.save_preferences, dictGet_dictSet_same]
  · simp [UserPreferences.set_user_preference, UserPreferences.get_user_preference,
      UserPreferences.save_preferences, UserPreferences.ofFile, load_preferences,
      dictGet_dictSet_same]

/-- Claim C6: after every completed `set_user_preference`, the preferences
file holds the entire serialised in-memory document (write-through, whole
document, no batching): the file equals the in-memory map, the mutated
entry is present, and every other user entry is rewritten unchanged. -/
theorem C6_write_through {α : Type} (p : UserPreferences α) (user_id : Int)
    (key : String) (value : α) :
    (p.set_user_preference user_id key value).prefs_file =
      (p.set_user_preference user_id key value).preferences ∧
    dictGet (p.set_user_preference user_id key value).prefs_file
        (toString user_id) ≠ none ∧
    (∀ other : String, other ≠ toString user_id →
      dictGet (p.set_user_preference user_id key value).prefs_file other =
        dictGet p.preferences other) := by
  refine ⟨rfl, ?_, ?_⟩
  · simp [UserPreferences.set_user_preference, UserPreferences.save_preferences,
      dictGet_dictSet_same]
  · intro other hne
    simp only [UserPreferences.set_user_preference, UserPreferences.save_preferences]
    exact dictGet_dictSet_other _ _ _ _ hne

/-- Concrete store used by the C6 witness. -/
def exPrefs : UserPreferences String :=
  { prefs_file := [("42", [("preferred_audio_quality", "low")])],
    preferences := [("42", [("preferred_audio_quality", "low")])] }

theorem C6_write_through_witness :
    (exPrefs.set_user_preference 7 "preferred_audio_quality" "high").prefs_file =
      (exPrefs.set_user_preference 7 "preferred_audio_quality" "high").preferences ∧
    dictGet (exPrefs.set_user_preference 7 "preferred_audio_quality" "high").prefs_file
        "42" = dictGet exPrefs.preferences "42" :=
  ⟨(C6_write_through exPrefs 7 "preferred_audio_quality" "high").1,
   (C6_write_through exPrefs 7 "preferred_audio_quality" "high").2.2 "42" (by decide)⟩

/-! ## Whitelist (src/bot.py lines 228-245, 1027-1034, 1071-1078, 1829-1863)

`Environment.__init__` parses `ADMIN_ID` and `WHITELISTED_IDS` and appends
the admin to the whitelist under a Python truthiness test
(`if self.ADMIN_ID and self.ADMIN_ID not in self.WHITELISTED_IDS`), so an
admin id of `0`, like `None`, counts as not configured.
`is_whitelisted` permits everyone when the list is empty and membership
otherwise; `handle_url_message` routes non-whitelisted users to
`handle_denied_user`, which replies with the fixed denial notice and
forwards the offending message to the admin chat. -/

/-- The fixed denial notice `Text.DENIED_MESSAGE` (src/bot.py lines 288-292). -/
def DENIED_MESSAGE : String :=
  "<b>This bot is private.</b>\n\nIf you want to use this bot, please contact the administrator."

/-- Lines 243-245: append the admin id to the parsed whitelist when it is
truthy and not already present. -/
def buildWhitelist (admin : Option Int) (parsed : List Int) : List Int :=
  match admin with
  | some a => if a ≠ 0 ∧ a ∉ parsed then parsed ++ [a] else parsed
  | none => parsed

/-- `is_whitelisted` (lines 1027-1034). -/
def is_whitelisted (whitelist : List Int) (user_id : Int) : Bool :=
  if whitelist.length = 0 then true
  else decide (user_id ∈ whitelist)

/-- The outbound chat calls made while denying a user. -/
inductive BotAction where
  | replyHtml (text : String)
  | editMessage (text : String)
  | forwardToAdmin (admin : Option Int)
  | react (emoji : String)
deriving DecidableEq

/-- `handle_denied_user` (lines 1829-1863): reply with the fixed notice,
optionally edit it to a translation when the user has a truthy non-English
language code and translation changed the text, then forward the message to
the admin chat and react to it. -/
def handle_denied_user (langCode : Option String) (translated : String)
    (admin : Option Int) : List BotAction :=
  [BotAction.replyHtml DENIED_MESSAGE] ++
  (match langCode with
   | some lc =>
       if lc ≠ "" ∧ lc ≠ "en" ∧ translated ≠ DENIED_MESSAGE then
         [BotAction.editMessage translated]
       else []
   | none => []) ++
  [BotAction.forwardToAdmin admin, BotAction.react "🖕"]

/-- Result of the whitelist gate at the top of `handle_url_message`
(lines 1071-1078). -/
inductive UrlGate where
  | denied (actions : List BotAction)
  | proceed
deriving DecidableEq

/-- The gate itself: a non-whitelisted user is denied and the handler
returns before any URL is processed. -/
def handle_url_message_gate (whitelist : List Int) (user_id : Int)
    (langCode : Option String) (translated : String) (admin : Option Int) : UrlGate :=
  if is_whitelisted whitelist user_id = true then UrlGate.proceed
  else UrlGate.denied (handle_denied_user langCode translated admin)

/-- Claim C7: the allow-list check permits every user when the whitelist is
empty; when non-empty, a user is permitted iff their id is listed (and the
whitelist includes the admin id whenever one is configured, configured
meaning a truthy `ADMIN_ID`); every denied user receives the fixed
access-denied notice and their message is forwarded to the admin. -/
theorem C7_whitelist (admin : Option Int) (parsed whitelist : List Int)
    (user_id : Int) (langCode : Option String) (translated : String) :
    (whitelist = [] → is_whitelisted whitelist user_id = true) ∧
    (whitelist ≠ [] →
      (is_whitelisted whitelist user_id = true ↔ user_id ∈ whitelist)) ∧
    (∀ a : Int, admin = some a → a ≠ 0 → a ∈ buildWhitelist admin parsed) ∧
    (is_whitelisted whitelist user_id = false →
      handle_url_message_gate whitelist user_id langCode translated admin =
        UrlGate.denied (handle_denied_user langCode translated admin) ∧
      BotAction.replyHtml DENIED_MESSAGE ∈
        handle_denied_user langCode translated admin ∧
      BotAction.forwardToAdmin admin ∈
        handle_denied_user langCode translated admin) := by
  refine ⟨?_, ?_, ?_, ?_⟩
  · intro h
    subst h
    rfl
  · intro h
    have hlen : ¬ whitelist.length = 0 := by
      simpa [List.length_eq_zero] using h
    simp [is_whitelisted, hlen]
  · intro a ha hz
    subst ha
    by_cases hmem : a ∈ parsed
    · simp [buildWhitelist, hmem]
    · simp [buildWhitelist, hmem, hz]
  · intro hfalse
    refine ⟨?_, ?_, ?_⟩
    · simp [handle_url_message_gate, hfalse]
    · simp [handle_denied_user]
    · simp [handle_denied_user]

theorem C7_whitelist_witness :
    (is_whitelisted [5] 7 = true ↔ (7 : Int) ∈ [(5 : Int)]) ∧
    (5 : Int) ∈ buildWhitelist (some 5) [] ∧
    BotAction.replyHtml DENIED_MESSAGE ∈ handle_denied_user none DENIED_MESSAGE (some 5) ∧
    BotAction.forwardToAdmin (some 5) ∈ handle_denied_user none DENIED_MESSAGE (some 5) :=
  ⟨(C7_whitelist (some 5) [] [5] 7 none DENIED_MESSAGE).2.1 (by decide),
   (C7_whitelist (some 5) [] [5] 7 none DENIED_MESSAGE).2.2.1 5 rfl (by decide),
   ((C7_whitelist (some 5) [] [5] 7 none DENIED_MESSAGE).2.2.2 (by decide)).2.1,
   ((C7_whitelist (some 5) [] [5] 7 none DENIED_MESSAGE).2.2.2 (by decide)).2.2⟩

/-! ## Callback payloads (src/bot.py lines 294-297, 1319-1355, 1357-1395)

`show_audio_quality_options` attaches to each quality button the payload
`f"aq:quality:url"`; `handle_callback_query` strips the `aq:` prefix and
splits once on the first colon, recovering the quality and the URL.  The
handler consults no per-user session state — the class keeps no session
dictionary at all, the payload is self-contained — so it cannot
distinguish a fresh button from one left over after a cancellation or a
newer URL.  Payload strings are modelled at character level. -/

/-- `CallbackPrefix.AUDIO_QUALITY` (line 296). -/
def AUDIO_QUALITY : List Char := ['a', 'q', ':']

/-- `CallbackPrefix.CANCEL` (line 297). -/
def CANCEL : List Char := ['c', 'a', 'n', 'c', 'e', 'l']

/-- Python `str.startswith`. -/
def startsWith : List Char → List Char → Bool
  | [], _ => true
  | _ :: _, [] => false
  | p :: ps, c :: cs => if p = c then startsWith ps cs else false

/-- Python `s.split(":", 1)` restricted to the information the handler
uses: `none` when there is no colon (so the split yields a single part and
`len(parts) != 2`), otherwise the text before and after the first colon. -/
def splitFirstColon : List Char → Option (List Char × List Char)
  | [] => none
  | c :: cs =>
      if c = ':' then some ([], cs)
      else
        match splitFirstColon cs with
        | none => none
        | some (before, after) => some (c :: before, after)

/-- What `handle_callback_query` does with a callback payload. -/
inductive CallbackAction where
  | startDownload (quality url : List Char)  -- saves the preference and calls download_audio
  | invalidSelection                         -- edits in the invalid-selection notice
  | canceled                                 -- edits in the canceled notice
  | unknownOption                            -- answers with the unknown-option toast
deriving DecidableEq

/-- `handle_callback_query` (lines 1357-1395): dispatch on the payload
alone.  There is no session lookup anywhere in this handler and no
session-expired reply in the program. -/
def handle_callback_query (data : List Char) : CallbackAction :=
  if startsWith AUDIO_QUALITY data = true then
    match splitFirstColon (data.drop AUDIO_QUALITY.length) with
    | some (quality, url) => CallbackAction.startDownload quality url
    | none => CallbackAction.invalidSelection
  else if data = CANCEL then CallbackAction.canceled
  else CallbackAction.unknownOption

theorem startsWith_append (p rest : List Char) :
    startsWith p (p ++ rest) = true := by
  induction p with
  | nil => rfl
  | cons c cs ih => simp [startsWith, ih]

theorem splitFirstColon_append (q url : List Char) (hq : ':' ∉ q) :
    splitFirstColon (q ++ ':' :: url) = some (q, url) := by
  induction q with
  | nil => simp [splitFirstColon]
  | cons c cs ih =>
      have hc : ¬ c = ':' := fun h => hq (by rw [h]; exact List.mem_cons_self _ _)
      have hcs : ':' ∉ cs := fun h => hq (List.mem_cons_of_mem _ h)
      simp [splitFirstColon, hc, ih hcs]

/-- The payload attached to a quality button by `show_audio_quality_options`
(lines 1347-1352): `f"aq:quality:url"`. -/
def audio_callback_data (quality url : List Char) : List Char :=
  AUDIO_QUALITY ++ quality ++ ':' :: url

/-- The parsing half performed by `handle_callback_query`
(lines 1370-1377): strip the `aq:` prefix, split once on the first colon. -/
def parse_audio_callback (data : List Char) : Option (List Char × List Char) :=
  if startsWith AUDIO_QUALITY data = true then
    splitFirstColon (data.drop AUDIO_QUALITY.length)
  else none

theorem parse_audio_callback_roundtrip (quality url : List Char) (hq : ':' ∉ quality) :
    parse_audio_callback (audio_callback_data quality url) = some (quality, url) := by
  unfold parse_audio_callback audio_callback_data
  have hsw : startsWith AUDIO_QUALITY (AUDIO_QUALITY ++ quality ++ ':' :: url) = true := by
    rw [List.append_assoc]
    exact startsWith_append _ _
  rw [if_pos hsw]
  have hdrop : (AUDIO_QUALITY ++ quality ++ ':' :: url).drop AUDIO_QUALITY.length =
      quality ++ ':' :: url := by
    simp [AUDIO_QUALITY]
  rw [hdrop]
  exact splitFirstColon_append quality url hq

/-- Claim C4 counterexample: the payload of a quality button — for example
one left on screen after the user cancelled or sent a newer URL, which the
stateless handler cannot tell apart from a fresh one — is acted upon: the
handler starts the download.  It does not reject it, and no session-expired
reply exists anywhere in `handle_callback_query` (the `CallbackAction` type
enumerates every reply the source can produce). -/
theorem C4_counterexample :
    handle_callback_query
        ['a','q',':','h','i','g','h',':','h','t','t','p','s',':','/','/','y','o','u','t','u','.','b','e','/','x'] =
      CallbackAction.startDownload ['h','i','g','h']
        ['h','t','t','p','s',':','/','/','y','o','u','t','u','.','b','e','/','x'] := by
  rfl

/-- Claim C4 (amended): the callback handler keeps no session state; a
callback payload embeds the quality and URL, and every well-formed
audio-quality callback — stale or not — starts a download.  Only an
`aq:` payload with no colon after the prefix is rejected (invalid
selection); there is no session-expired message. -/
theorem C4_no_session_check (quality url : List Char) (hq : ':' ∉ quality) :
    handle_callback_query (AUDIO_QUALITY ++ quality ++ ':' :: url) =
      CallbackAction.startDownload quality url := by
  unfold handle_callback_query
  have hsw : startsWith AUDIO_QUALITY (AUDIO_QUALITY ++ quality ++ ':' :: url) = true := by
    rw [List.append_assoc]
    exact startsWith_append _ _
  rw [if_pos hsw]
  have hdrop : (AUDIO_QUALITY ++ quality ++ ':' :: url).drop AUDIO_QUALITY.length =
      quality ++ ':' :: url := by
    simp [AUDIO_QUALITY]
  rw [hdrop, splitFirstColon_append quality url hq]

theorem C4_no_session_check_witness :
    handle_callback_query (AUDIO_QUALITY ++ ['l','o','w'] ++ ':' :: ['u','r','l']) =
      CallbackAction.startDownload ['l','o','w'] ['u','r','l'] :=
  C4_no_session_check ['l','o','w'] ['u','r','l'] (by decide)

/-- Claim C10: for each quality in high, medium, low and every URL string —
colons in the URL included — composing the button payload and parsing it in
the callback handler recovers exactly the original quality and URL, because
the parse splits only on the first colon after the stripped prefix. -/
theorem C10_payload_roundtrip (url : List Char) :
    parse_audio_callback (audio_callback_data ['h','i','g','h'] url) =
      some (['h','i','g','h'], url) ∧
    parse_audio_callback (audio_callback_data ['m','e','d','i','u','m'] url) =
      some (['m','e','d','i','u','m'], url) ∧
    parse_audio_callback (audio_callback_data ['l','o','w'] url) =
      some (['l','o','w'], url) :=
  ⟨parse_audio_callback_roundtrip _ url (by decide),
   parse_audio_callback_roundtrip _ url (by decide),
   parse_audio_callback_roundtrip _ url (by decide)⟩

/-! ## Download timeout handling (src/bot.py lines 1397-1537, 1539-1656)

In `download_audio`, the fetch runs under `asyncio.wait_for(..., timeout=300)`;
on `asyncio.TimeoutError` the code raises a plain
`Exception("Download timed out after 5 minutes")`, which is then caught by
the same function's catch-all `except Exception as e` and reported as
`f"X platform download failed: str(e)"` — exactly the path any other error
takes.  No `DownloadTimeout` type exists anywhere in src/.  Only
`download_spotify_audio` catches the typed `subprocess.TimeoutExpired`
separately and emits a timeout-specific message.  Both functions handle all
their errors internally, so nothing propagates to their caller. -/

/-- Possible outcomes of the blocking fetch inside `download_audio`. -/
inductive FetchOutcome where
  | success (title : String)  -- extract_info returned and the file exists
  | timeout                   -- asyncio.TimeoutError from wait_for(timeout=300)
  | failure (msg : String)    -- any other exception, carrying str(e)
deriving DecidableEq

/-- The messages `download_audio` / `download_spotify_audio` can leave in
the chat, by template. -/
inductive UserMessage where
  | completed (title : String)                         -- success edit
  | downloadFailed (platform : String) (err : String)  -- generic handler, line 1530
  | spotifyTimeout                                     -- typed TimeoutExpired handler, line 1639
  | spotifyFailed (err : String)                       -- generic Spotify handler, line 1649
deriving DecidableEq

/-- The inner `try` of `download_audio` (lines 1484-1494): success yields
the info, `asyncio.TimeoutError` is re-raised as a plain `Exception` whose
`str` is the fixed text below, any other exception propagates with its own
`str`.  The error type is `String` because after
`raise Exception(...)` only `str(e)` survives into the catch-all. -/
def fetch_with_timeout (o : FetchOutcome) : Except String String :=
  match o with
  | FetchOutcome.success t => Except.ok t
  | FetchOutcome.timeout => Except.error "Download timed out after 5 minutes"
  | FetchOutcome.failure m => Except.error m

/-- `download_audio` (lines 1397-1537), reduced to which message template
it leaves in the chat: every exception — the re-raised timeout included —
lands in the one catch-all `except Exception` and is reported through the
generic failure template. -/
def download_audio (platform : String) (o : FetchOutcome) : UserMessage :=
  match fetch_with_timeout o with
  | Except.ok t => UserMessage.completed t
  | Except.error e => UserMessage.downloadFailed platform e

/-- Possible outcomes of the spotdl subprocess in `download_spotify_audio`. -/
inductive SpotifyOutcome where
  | success (title : String)
  | timeoutExpired          -- subprocess.TimeoutExpired from subprocess.run(timeout=300)
  | failure (msg : String)
deriving DecidableEq

/-- `download_spotify_audio` (lines 1539-1656): the typed
`subprocess.TimeoutExpired` has its own `except` clause with a fixed
timeout-specific message; every other exception goes to the generic
Spotify failure message. -/
def download_spotify_audio (o : SpotifyOutcome) : UserMessage :=
  match o with
  | SpotifyOutcome.success t => UserMessage.completed t
  | SpotifyOutcome.timeoutExpired => UserMessage.spotifyTimeout
  | SpotifyOutcome.failure m => UserMessage.spotifyFailed m

/-- Claim C9 counterexample: in `download_audio` a fetch timeout is NOT
surfaced as a typed DownloadTimeout error.  It is re-raised as a plain
`Exception` indistinguishable from any other failure carrying the same
string, and the user-facing message comes from the same generic
download-failed template as every other error. -/
theorem C9_counterexample :
    fetch_with_timeout FetchOutcome.timeout =
      fetch_with_timeout (FetchOutcome.failure "Download timed out after 5 minutes") ∧
    download_audio "YouTube" FetchOutcome.timeout =
      UserMessage.downloadFailed "YouTube" "Download timed out after 5 minutes" ∧
    download_audio "YouTube" FetchOutcome.timeout =
      download_audio "YouTube" (FetchOutcome.failure "Download timed out after 5 minutes") :=
  ⟨rfl, rfl, rfl⟩

/-- Claim C9 (amended): a fetch timeout in `download_audio` is converted to
a generic `Exception` and reported through the generic per-platform failure
template, with only its message text mentioning the timeout; the typed
timeout handling the claim describes exists solely in
`download_spotify_audio`, where `subprocess.TimeoutExpired` gets its own
handler and a timeout-specific message distinct from the generic Spotify
failure.  In both functions every error is handled inside the job itself
(both definitions are total, returning a `UserMessage` for every outcome),
so a timeout never prevents the queue from proceeding. -/
theorem C9_timeout_paths (platform : String) :
    download_audio platform FetchOutcome.timeout =
      UserMessage.downloadFailed platform "Download timed out after 5 minutes" ∧
    download_spotify_audio SpotifyOutcome.timeoutExpired = UserMessage.spotifyTimeout ∧
    (∀ m : String, download_spotify_audio SpotifyOutcome.timeoutExpired ≠
      UserMessage.spotifyFailed m) := by
  refine ⟨rfl, rfl, ?_⟩
  intro m h
  exact UserMessage.noConfusion h

/-! ## Format Classifier audio tiers (spec section 4.2)

The bot in src/ is audio-only and maps the chosen quality name directly to
a fixed target bitrate (`quality_map`, src/bot.py lines 1415-1419); the
rendition-list classifier described by the spec is not part of src/, so it
is modelled from the spec text and claim C8 is settled against that model. -/

/-- Modelled from the spec: an audio-only rendition — "one downloadable
stream variant" with its audio bitrate (`abr`) and an opaque format
identifier (`fid`) to tell renditions apart.  The classifier itself is
missing from src/. -/
structure AudioRendition where
  fid : Nat
  abr : Nat
deriving DecidableEq

/-- Modelled from the spec: one insertion step of sorting the audio-only
list "descending by audio-bitrate" (spec section 4.2 step 2). -/
def insertByAbr (r : AudioRendition) : List AudioRendition → List AudioRendition
  | [] => [r]
  | x :: xs => if x.abr ≤ r.abr then r :: x :: xs else x :: insertByAbr r xs

/-- Modelled from the spec: sort the audio-only rendition list descending
by bitrate (spec section 4.2 step 2); the classifier is missing from src/. -/
def sortByAbrDesc : List AudioRendition → List AudioRendition
  | [] => []
  | x :: xs => insertByAbr x (sortByAbrDesc xs)

/-- Modelled from the spec: the audio-tier selection of the Format
Classifier (spec section 4.2 step 4), missing from src/: high is the first
entry with bitrate at least 256, else the single best entry; medium is the
first entry with bitrate in [128, 256), else whatever was picked for high;
low is the first entry with bitrate at most 128, else whatever was picked
for medium.  An empty list has no usable formats (spec step 6). -/
def classifyAudio (rs : List AudioRendition) :
    Option (AudioRendition × AudioRendition × AudioRendition) :=
  match sortByAbrDesc rs with
  | [] => none
  | best :: rest =>
      let sorted := best :: rest
      let high := (sorted.find? fun r => decide (256 ≤ r.abr)).getD best
      let medium := (sorted.find? fun r => decide (128 ≤ r.abr ∧ r.abr < 256)).getD high
      let low := (sorted.find? fun r => decide (r.abr ≤ 128)).getD medium
      some (high, medium, low)

/-- The descending-bitrate order maintained by the sort. -/
def abrGE (a b : AudioRendition) : Prop := b.abr ≤ a.abr

theorem mem_insertByAbr {x r : AudioRendition} {l : List AudioRendition} :
    x ∈ insertByAbr r l ↔ x = r ∨ x ∈ l := by
  induction l with
  | nil => simp [insertByAbr]
  | cons y ys ih =>
      by_cases hy : y.abr ≤ r.abr
      · simp [insertByAbr, hy]
      · simp only [insertByAbr, if_neg hy, List.mem_cons, ih]
        tauto

theorem pairwise_insertByAbr {r : AudioRendition} {l : List AudioRendition}
    (h : List.Pairwise abrGE l) : List.Pairwise abrGE (insertByAbr r l) := by
  induction l with
  | nil => simp [insertByAbr, abrGE]
  | cons y ys ih =>
      rcases List.pairwise_cons.mp h with ⟨hy, hys⟩
      by_cases hle : y.abr ≤ r.abr
      · simp only [insertByAbr, if_pos hle]
        refine List.pairwise_cons.mpr ⟨?_, List.pairwise_cons.mpr ⟨hy, hys⟩⟩
        intro z hz
        rcases List.mem_cons.mp hz with hz | hz
        · subst hz
          exact hle
        · exact le_trans (hy z hz) hle
      · simp only [insertByAbr, if_neg hle]
        refine List.pairwise_cons.mpr ⟨?_, ih hys⟩
        intro z hz
        rcases mem_insertByAbr.mp hz with hz | hz
        · subst hz
          show z.abr ≤ y.abr
          omega
        · exact hy z hz

theorem pairwise_sortByAbrDesc (l : List AudioRendition) :
    List.Pairwise abrGE (sortByAbrDesc l) := by
  induction l with
  | nil => simp [sortByAbrDesc]
  | cons x xs ih =>
      simp only [sortByAbrDesc]
      exact pairwise_insertByAbr ih

theorem head_max_sortByAbrDesc {rs rest : List AudioRendition} {best : AudioRendition}
    (hs : sortByAbrDesc rs = best :: rest) :
    ∀ x ∈ best :: rest, x.abr ≤ best.abr := by
  intro x hx
  rcases List.mem_cons.mp hx with hx | hx
  · subst hx
    exact le_refl _
  · have hp := pairwise_sortByAbrDesc rs
    rw [hs] at hp
    exact (List.pairwise_cons.mp hp).1 x hx

/-- Claim C8 counterexample: three distinct renditions, all with bitrate at
least 256.  The high tier takes the 300 kbps entry, the medium band
[128, 256) is unpopulated so medium falls back to high, and the low band is
unpopulated so low falls back to medium: all three tiers collapse to
equality even though three distinct renditions exist, refuting the claim
that equality occurs only with fewer than three distinct renditions. -/
theorem C8_counterexample :
    classifyAudio [⟨0, 300⟩, ⟨1, 290⟩, ⟨2, 280⟩] =
      some (⟨0, 300⟩, ⟨0, 300⟩, ⟨0, 300⟩) ∧
    ([⟨0, 300⟩, ⟨1, 290⟩, ⟨2, 280⟩] : List AudioRendition).Nodup ∧
    ([⟨0, 300⟩, ⟨1, 290⟩, ⟨2, 280⟩] : List AudioRendition).length = 3 := by
  refine ⟨by decide, by decide, rfl⟩

/-- Claim C8 (amended): for every rendition list with at least one
audio-only entry, the classified audio-high tier's bitrate is at least the
audio-medium tier's, which is at least the audio-low tier's; the tiers can
collapse to equality both when fewer than three distinct renditions exist
and when a tier's bitrate band is unpopulated (as in the counterexample). -/
theorem C8_audio_tier_order {rs : List AudioRendition}
    {hi mid lo : AudioRendition}
    (h : classifyAudio rs = some (hi, mid, lo)) :
    lo.abr ≤ mid.abr ∧ mid.abr ≤ hi.abr := by
  unfold classifyAudio at h
  cases hs : sortByAbrDesc rs with
  | nil =>
      rw [hs] at h
      exact absurd h (by simp)
  | cons best rest =>
      rw [hs] at h
      have hmax := head_max_sortByAbrDesc hs
      simp only [Option.some.injEq, Prod.mk.injEq] at h
      obtain ⟨hhi, hmid, hlo⟩ := h
      cases hh : (best :: rest).find? (fun r => decide (256 ≤ r.abr)) with
      | none =>
          cases hm : (best :: rest).find? (fun r => decide (128 ≤ r.abr ∧ r.abr < 256)) with
          | none =>
              cases hl : (best :: rest).find? (fun r => decide (r.abr ≤ 128)) with
              | none =>
                  simp only [hh, hm, hl, Option.getD_none, Option.getD_some] at hhi hmid hlo
                  subst hhi
                  subst hmid
                  subst hlo
                  omega
              | some lo0 =>
                  have hlo0 : lo0.abr ≤ 128 := by
                    have := List.find?_some hl
                    simpa using this
                  have hlo0mem : lo0 ∈ best :: rest := List.mem_of_find?_eq_some hl
                  have hlo0best := hmax lo0 hlo0mem
                  simp only [hh, hm, hl, Option.getD_none, Option.getD_some] at hhi hmid hlo
                  subst hhi
                  subst hmid
                  subst hlo
                  omega
          | some m =>
              have hm1 : 128 ≤ m.abr ∧ m.abr < 256 := by
                have := List.find?_some hm
                simpa using this
              have hmmem : m ∈ best :: rest := List.mem_of_find?_eq_some hm
              have hmbest := hmax m hmmem
              cases hl : (best :: rest).find? (fun r => decide (r.abr ≤ 128)) with
              | none =>
                  simp only [hh, hm, hl, Option.getD_none, Option.getD_some] at hhi hmid hlo
                  subst hhi
                  subst hmid
                  subst hlo
                  omega
              | some lo0 =>
                  have hlo0 : lo0.abr ≤ 128 := by
                    have := List.find?_some hl
                    simpa using this
                  simp only [hh, hm, hl, Option.getD_none, Option.getD_some] at hhi hmid hlo
                  subst hhi
                  subst hmid
                  subst hlo
                  omega
      | some hgh =>
          have hh1 : 256 ≤ hgh.abr := by
            have := List.find?_some hh
            simpa using this
          cases hm : (best :: rest).find? (fun r => decide (128 ≤ r.abr ∧ r.abr < 256)) with
          | none =>
              cases hl : (best :: rest).find? (fun r => decide (r.abr ≤ 128)) with
              | none =>
                  simp only [hh, hm, hl, Option.getD_none, Option.getD_some] at hhi hmid hlo
                  subst hhi
                  subst hmid
                  subst hlo
                  omega
              | some lo0 =>
                  have hlo0 : lo0.abr ≤ 128 := by
                    have := List.find?_some hl
                    simpa using this
                  simp only [hh, hm, hl, Option.getD_none, Option.getD_some] at hhi hmid hlo
                  subst hhi
                  subst hmid
                  subst hlo
                  omega
          | some m =>
              have hm1 : 128 ≤ m.abr ∧ m.abr < 256 := by
                have := List.find?_some hm
                simpa using this
              cases hl : (best :: rest).find? (fun r => decide (r.abr ≤ 128)) with
              | none =>
                  simp only [hh, hm, hl, Option.getD_none, Option.getD_some] at hhi hmid hlo
                  subst hhi
                  subst hmid
                  subst hlo
                  omega
              | some lo0 =>
                  have hlo0 : lo0.abr ≤ 128 := by
                    have := List.find?_some hl
                    simpa using this
                  simp only [hh, hm, hl, Option.getD_none, Option.getD_some] at hhi hmid hlo
                  subst hhi
                  subst hmid
                  subst hlo
                  omega

theorem C8_audio_tier_order_witness :
    (⟨2, 96⟩ : AudioRendition).abr ≤ (⟨1, 192⟩ : AudioRendition).abr ∧
    (⟨1, 192⟩ : AudioRendition).abr ≤ (⟨0, 320⟩ : AudioRendition).abr :=
  C8_audio_tier_order
    (by decide :
      classifyAudio [⟨0, 320⟩, ⟨1, 192⟩, ⟨2, 96⟩] =
        some (⟨0, 320⟩, ⟨1, 192⟩, ⟨2, 96⟩))

end YTBot
